import Mathlib

/-!
Verification of the playback-timeline core of the `spear` music player.

This file gives a shallow embedding of the code in `playback_timeline.py`,
the exit handling of the playback session in `play_song.py`, and the
queue-walk coordination in `cli_menu.py`, and proves (or refutes) the
frozen claims C1-C10 about it.

Modelling conventions:
* The SQLite tables are modelled by `TL`:
  - `playback_timeline(song_uid, position)` becomes `entries : List Entry`,
    held in rowid (insertion) order; `added_at` is carried by the code but
    never consulted by any logic, so it is dropped.
  - the singleton `playback_cursor(position, resume_ms)` row becomes the
    fields `cursor` and `resume`.
* `SELECT ... WHERE position = ? ... fetchone()` becomes `selectAt` (first
  row in rowid order); `SELECT ... ORDER BY position` becomes `sortByPos`
  (an insertion sort by position).
* The song catalog (the `songs` table) is a parameter `cat : List Uid`;
  `get_song uid is not None` becomes `cat.contains uid`.
* `get_random_song` (`ORDER BY RANDOM() LIMIT 1`) is deterministically
  parameterised by a seed `n : Nat`: it returns `none` exactly on the empty
  catalog and otherwise some element of the catalog.
* `_validate_uid` raising `ValueError` makes the mutating operations
  `append_song` / `append_song_list` return `Option TL` (`none` = raise,
  nothing committed).
-/

namespace Spear

/-- Song identifiers (`song_uid` strings). -/
abbrev Uid := String

/-- A row of the `playback_timeline` table: `position` and `song_uid`. -/
structure Entry where
  pos : Int
  uid : Uid
deriving Repr, DecidableEq

/-- The persisted timeline state: the `playback_timeline` rows (in rowid
order) together with the singleton `playback_cursor` row. -/
structure TL where
  entries : List Entry
  cursor : Int
  resume : Int
deriving Repr, DecidableEq

/-- `db_utils.validate_uid`: the regex `^[a-zA-Z0-9]{16}$`. -/
def valid_uid (u : Uid) : Bool :=
  u.length == 16 && u.data.all (fun c => c.isAlpha || c.isDigit)

/-- `SELECT song_uid FROM playback_timeline WHERE position = ? ... fetchone()`:
the first row (in rowid order) at position `p`. -/
def selectAt (l : List Entry) (p : Int) : Option Uid :=
  (l.find? (fun e => e.pos == p)).map Entry.uid

/-- `get_cursor`. -/
def get_cursor (s : TL) : Int := s.cursor

/-- `_set_cursor`: sets the cursor position and resets `resume_ms` to 0. -/
def set_cursor (p : Int) (s : TL) : TL := { s with cursor := p, resume := 0 }

/-- `set_resume_ms`. -/
def set_resume_ms (ms : Int) (s : TL) : TL := { s with resume := ms }

/-- `get_resume_ms`. -/
def get_resume_ms (s : TL) : Int := s.resume

/-- `get_current_song`. -/
def get_current_song (s : TL) : Option Uid :=
  if s.cursor < 0 then none else selectAt s.entries s.cursor

/-- `clear_timeline`: deletes all rows and sets the cursor position to -1.
(Note: the SQL `UPDATE playback_cursor SET position = -1` does not touch
`resume_ms`.) -/
def clear_timeline (s : TL) : TL := { s with entries := [], cursor := -1 }

/-- The song catalog: the set of uids present in the `songs` table. -/
abbrev Catalog := List Uid

/-- `song_metadata.get_random_song` (`ORDER BY RANDOM() LIMIT 1`), with the
randomness made explicit as a seed `n`. -/
def get_random_song (cat : Catalog) (n : Nat) : Option Uid :=
  match cat with
  | [] => none
  | _ :: _ => cat.get? (n % cat.length)

/-- Insertion into a list sorted by ascending `position` (helper for
`sortByPos`). -/
def insertByPos (e : Entry) : List Entry → List Entry
  | [] => [e]
  | f :: r => if e.pos < f.pos then e :: f :: r else f :: insertByPos e r

/-- `SELECT ... ORDER BY position`: insertion sort of the rows by position. -/
def sortByPos : List Entry → List Entry
  | [] => []
  | e :: r => insertByPos e (sortByPos r)

/-- The descending scan of `skip_back`
(`for new_pos in range(cursor_pos - 1, -1, -1)`): looks for the first
position `p, p-1, ..., 0` holding a row whose song still resolves in the
catalog. -/
def sb_find (l : List Entry) (cat : Catalog) : Nat → Option (Nat × Uid)
  | 0 =>
    match selectAt l 0 with
    | some u => if cat.contains u then some (0, u) else none
    | none => none
  | p + 1 =>
    match selectAt l ((p + 1 : Nat) : Int) with
    | some u => if cat.contains u then some (p + 1, u) else sb_find l cat p
    | none => sb_find l cat p

/-- `skip_back`: returns the uid navigated to (or `none`) together with the
resulting timeline state. -/
def skip_back (cat : Catalog) (s : TL) : Option Uid × TL :=
  if s.cursor ≤ 0 then (none, s)
  else
    match sb_find s.entries cat (s.cursor - 1).toNat with
    | some (p, u) => (some u, set_cursor ((p : Nat) : Int) s)
    | none => (none, s)

/-- `skip_forward` with `shuffle=False` (the only form the claims use; the
`if shuffle:` branch is not taken).  The random pick for the empty-future
case is parameterised by the seed `n`. -/
def skip_forward (cat : Catalog) (n : Nat) (s : TL) : Option Uid × TL :=
  let c := s.cursor
  let future := s.entries.filter (fun e => decide (c < e.pos))
  if future.length = 0 then
    match get_random_song cat n with
    | none => (none, s)
    | some u =>
      let s1 : TL := { s with entries := s.entries ++ [⟨c + 1, u⟩] }
      (some u, set_cursor (c + 1) s1)
  else
    match (sortByPos future).find? (fun e => cat.contains e.uid) with
    | some e => (some e.uid, set_cursor e.pos s)
    | none => (none, s)

/-- `_delete_future`: `DELETE FROM playback_timeline WHERE position > ?`. -/
def delete_future (c : Int) (s : TL) : TL :=
  { s with entries := s.entries.filter (fun e => decide (e.pos ≤ c)) }

/-- Reinsertion with contiguous positions `i, i+1, ...` (the reinsert loop of
`_renumber_positions`). -/
def renumber_list (i : Int) : List Entry → List Entry
  | [] => []
  | e :: r => ⟨i, e.uid⟩ :: renumber_list (i + 1) r

/-- The cursor-tracking fold of `_renumber_positions`: starting from
`new_cursor = -1`, every reinserted row whose uid equals the tracked song
overwrites `new_cursor` with its new position (so the *last* occurrence
wins). -/
def last_match (target : Option Uid) : List Uid → Int → Int → Int
  | [], _, acc => acc
  | u :: r, i, acc => last_match target r (i + 1) (if some u = target then i else acc)

/-- `_renumber_positions`: renumber all rows contiguously from 0, moving the
cursor to the (last) new position of the song it pointed at.  (The SQL
`UPDATE playback_cursor SET position = ?` does not touch `resume_ms`.) -/
def renumber_positions (s : TL) : TL :=
  let current_song : Option Uid :=
    if 0 ≤ s.cursor then selectAt s.entries s.cursor else none
  let sorted := sortByPos s.entries
  { entries := renumber_list 0 sorted,
    cursor := last_match current_song (sorted.map Entry.uid) 0 (-1),
    resume := s.resume }

/-- `MAX_PAST_ENTRIES`. -/
def MAX_PAST_ENTRIES : Nat := 100

/-- `_prune_past`: if more than `limit` rows sit strictly before the cursor,
delete the oldest excess ones (smallest positions), then renumber. -/
def prune_past (limit : Nat) (s : TL) : TL :=
  let c := s.cursor
  let past := s.entries.filter (fun e => decide (e.pos < c))
  let s1 : TL :=
    if limit < past.length then
      let ptd := ((sortByPos past).take (past.length - limit)).map Entry.pos
      { s with entries := s.entries.filter (fun e => !(ptd.contains e.pos)) }
    else s
  renumber_positions s1

/-- `append_song`: validate, discard the future, insert at `cursor+1`,
advance the cursor (resetting the resume offset), prune.  `none` models the
`ValueError` raised on an invalid uid (nothing committed). -/
def append_song (uid : Uid) (s : TL) : Option TL :=
  if valid_uid uid then
    let c := s.cursor
    let s1 := delete_future c s
    let s2 : TL := { s1 with entries := s1.entries ++ [⟨c + 1, uid⟩] }
    some (prune_past MAX_PAST_ENTRIES (set_cursor (c + 1) s2))
  else none

/-- The bulk-insert loop of `append_song_list`: uids are inserted at
positions `p, p+1, ...`. -/
def insertList (p : Int) : List Uid → List Entry
  | [] => []
  | u :: r => ⟨p, u⟩ :: insertList (p + 1) r

/-- `append_song_list`: validate every uid, discard the future, bulk-insert,
advance the cursor to the first inserted position, prune.  The empty list is
a no-op; `none` models the `ValueError` on any invalid uid. -/
def append_song_list (uids : List Uid) (s : TL) : Option TL :=
  if uids.isEmpty then some s
  else if uids.all valid_uid then
    let c := s.cursor
    let s1 := delete_future c s
    let s2 : TL := { s1 with entries := s1.entries ++ insertList (c + 1) uids }
    some (prune_past MAX_PAST_ENTRIES (set_cursor (c + 1) s2))
  else none

/-- `advance_cursor`. -/
def advance_cursor (s : TL) : TL := set_cursor (s.cursor + 1) s

/-- The number of timeline rows strictly before the cursor (the "past-entry
count" of the claims). -/
def count_past (s : TL) : Nat :=
  (s.entries.filter (fun e => decide (e.pos < s.cursor))).length

/-! ### Playback session (`play_song.py`) -/

/-- The four values `MusicPlayer.exit_reason` can hold. -/
inductive ExitReason
  | ended
  | skip
  | abort
  | navigate
deriving DecidableEq, Repr

/-- The shared fields of `MusicPlayer` relevant to the exit contract and to
G/H navigation. -/
structure Session where
  isPlaying : Bool
  isStopped : Bool
  shouldExit : Bool
  pendingUid : Option Uid
  exitReason : ExitReason
  lastPositionMs : Int
deriving DecidableEq, Repr

/-- `MusicPlayer._previous_song` (the G key): calls
`playback_timeline.skip_back()` first — the cursor move is committed inside
that call — and only then, if a uid came back, records it as the pending
target, sets the exit reason to `navigate` and raises the exit flag.  When
`skip_back` returns `None` the session fields are untouched. -/
def previous_song (cat : Catalog) (st : Session) (t : TL) : Session × TL :=
  let r := skip_back cat t
  match r.1 with
  | some u =>
    ({ st with pendingUid := some u, exitReason := .navigate, shouldExit := true }, r.2)
  | none => (st, r.2)

/-- `MusicPlayer._next_song` (the H key): same shape as `_previous_song`,
delegating to `skip_forward(shuffle=False)`. -/
def next_song (cat : Catalog) (n : Nat) (st : Session) (t : TL) : Session × TL :=
  let r := skip_forward cat n t
  match r.1 with
  | some u =>
    ({ st with pendingUid := some u, exitReason := .navigate, shouldExit := true }, r.2)
  | none => (st, r.2)

/-- The exit path of `MusicPlayer._display_and_control` (the lines after the
main playback loop): capture the backend-reported position when the exit
reason is `skip`/`abort`/`navigate`, otherwise 0, then raise the exit flag
for the keyboard thread. -/
def capture_exit (backendPos : Int) (st : Session) : Session :=
  let lp :=
    if st.exitReason = .skip ∨ st.exitReason = .abort ∨ st.exitReason = .navigate
    then backendPos else 0
  { st with lastPositionMs := lp, shouldExit := true }

/-! ### Queue-walk coordination (`cli_menu.py`) -/

/-- What a completed `MusicPlayer` run reports back to the coordinator:
`get_exit_reason()`, `get_pending_song()` and `get_last_position_ms()`. -/
structure SongOutcome where
  reason : ExitReason
  pending : Option Uid
  lastPos : Int
deriving DecidableEq, Repr

/-- The after-playback half of `cli_menu._play_song` as called from
`_play_playlist` (`_from_timeline=True`, `_single_nav=True`,
`_in_playlist=True`): decides whether the user navigated (returning `True`
after a single G/H press without playing the pending song) and whether a
resume offset is persisted.  `hasPath u` models
`song_metadata.get_song(u)` succeeding with a truthy `path`. -/
def play_song_after (hasPath : Uid → Bool) (oc : SongOutcome) (t : TL) : Bool × TL :=
  match oc.pending with
  | none =>
    if oc.reason ≠ .ended then (false, set_resume_ms oc.lastPos t) else (false, t)
  | some u =>
    if hasPath u then (true, t)
    else if oc.reason ≠ .ended then (false, set_resume_ms oc.lastPos t)
    else (false, t)

/-- What the `_play_playlist` loop decides to do after one song. -/
inductive WalkAction
  | aborted
  | abandoned
  | resumeAt (i : Nat)
  | advance
deriving DecidableEq, Repr

/-- One round of the `_play_playlist` loop after `_play_song` returns:
on navigation, read the new cursor, map it to a local queue index
(`current_cursor - timeline_base - 1`), abort on X, abandon the walk if the
index is outside `[0, queueLen)`, otherwise resume the walk there (the
cursor is already at that song, so it is not moved again); without
navigation, X aborts and anything else advances to the next local index. -/
def playlist_after_song (hasPath : Uid → Bool) (timelineBase : Int) (queueLen : Nat)
    (oc : SongOutcome) (t : TL) : WalkAction × TL :=
  let r := play_song_after hasPath oc t
  if r.1 then
    let landed : Int := r.2.cursor - timelineBase - 1
    if oc.reason = .abort then (.aborted, r.2)
    else if landed < 0 ∨ (queueLen : Int) ≤ landed then (.abandoned, r.2)
    else (.resumeAt landed.toNat, r.2)
  else
    if oc.reason = .abort then (.aborted, r.2)
    else (.advance, r.2)

/-! ### Concrete states used by counterexamples and witnesses -/

/-- 101 rows at positions `0..100`, cursor on the last row: the state
reached after 101 `append_song` calls (`count_past = 100`, empty future). -/
def fullPast : TL :=
  ⟨(List.range 101).map (fun i => ⟨(i : Int), "s"⟩), 100, 0⟩

/-- 103 rows at positions `0..102`, cursor at 101 where song `"X"` sits,
with `"X"` also sitting at position 102 (reachable: the same song can be
appended twice); `count_past = 101 > 100`. -/
def dupAfterCursor : TL :=
  ⟨((List.range 101).map (fun i => ⟨(i : Int), "s"⟩)) ++ [⟨101, "X"⟩, ⟨102, "X"⟩], 101, 0⟩

/-- 102 rows at positions `0..101`, cursor on the last row (song `"X"`),
`count_past = 101 > 100`: a state whose past exceeds the pruning window. -/
def prunableState : TL :=
  ⟨((List.range 101).map (fun i => ⟨(i : Int), "s"⟩)) ++ [⟨101, "X"⟩], 101, 3⟩

/-! ## Lemmas about the sorting helper -/

theorem insertByPos_perm (e : Entry) (l : List Entry) :
    List.Perm (insertByPos e l) (e :: l) := by
  induction l with
  | nil => simp [insertByPos]
  | cons f r ih =>
    by_cases h : e.pos < f.pos
    · simp [insertByPos, h]
    · simp only [insertByPos, if_neg h]
      exact (ih.cons f).trans (List.Perm.swap e f r)

theorem sortByPos_perm (l : List Entry) : List.Perm (sortByPos l) l := by
  induction l with
  | nil => exact List.Perm.refl _
  | cons e r ih => exact (insertByPos_perm e (sortByPos r)).trans (ih.cons e)

theorem mem_sortByPos {a : Entry} {l : List Entry} : a ∈ sortByPos l ↔ a ∈ l :=
  (sortByPos_perm l).mem_iff

theorem length_sortByPos (l : List Entry) : (sortByPos l).length = l.length :=
  (sortByPos_perm l).length_eq

theorem insertByPos_front {e : Entry} {l : List Entry} (h : ∀ y ∈ l, e.pos < y.pos) :
    insertByPos e l = e :: l := by
  cases l with
  | nil => rfl
  | cons f r => simp [insertByPos, h f (List.mem_cons_self f r)]

theorem insertByPos_append_hi {e : Entry} {m : List Entry} (h : ∀ y ∈ m, e.pos < y.pos) :
    ∀ s : List Entry, insertByPos e (s ++ m) = insertByPos e s ++ m := by
  intro s
  induction s with
  | nil => simpa [insertByPos] using insertByPos_front h
  | cons f r ih =>
    by_cases hf : e.pos < f.pos
    · simp [insertByPos, hf]
    · simp [insertByPos, hf, ih]

theorem sortByPos_sorted_id {m : List Entry}
    (hm : m.Pairwise (fun a b => a.pos < b.pos)) : sortByPos m = m := by
  induction m with
  | nil => rfl
  | cons e r ih =>
    rw [sortByPos, ih hm.of_cons]
    exact insertByPos_front (fun y hy => List.rel_of_pairwise_cons hm hy)

theorem sortByPos_append_hi {l m : List Entry}
    (hm : m.Pairwise (fun a b => a.pos < b.pos))
    (h : ∀ x ∈ l, ∀ y ∈ m, x.pos < y.pos) :
    sortByPos (l ++ m) = sortByPos l ++ m := by
  induction l with
  | nil => simpa [sortByPos] using sortByPos_sorted_id hm
  | cons f r ih =>
    have hr : ∀ x ∈ r, ∀ y ∈ m, x.pos < y.pos :=
      fun x hx => h x (List.mem_cons_of_mem f hx)
    have h1 : sortByPos ((f :: r) ++ m) = insertByPos f (sortByPos (r ++ m)) := rfl
    have h2 : sortByPos (f :: r) = insertByPos f (sortByPos r) := rfl
    rw [h1, h2, ih hr]
    exact insertByPos_append_hi (h f (List.mem_cons_self f r)) (sortByPos r)

/-! ## Lemmas about renumbering, row lookup and cursor tracking -/

theorem renumber_list_append (i : Int) (l₁ l₂ : List Entry) :
    renumber_list i (l₁ ++ l₂)
      = renumber_list i l₁ ++ renumber_list (i + (l₁.length : Int)) l₂ := by
  induction l₁ generalizing i with
  | nil => simp [renumber_list]
  | cons e r ih =>
    have h1 : renumber_list i ((e :: r) ++ l₂)
        = (⟨i, e.uid⟩ : Entry) :: renumber_list (i + 1) (r ++ l₂) := rfl
    have h2 : renumber_list i (e :: r)
        = (⟨i, e.uid⟩ : Entry) :: renumber_list (i + 1) r := rfl
    rw [h1, h2, ih, List.cons_append]
    have h3 : i + 1 + (r.length : Int) = i + (((e :: r).length : Nat) : Int) := by
      simp only [List.length_cons]
      push_cast
      ring
    rw [h3]

theorem length_renumber_list (i : Int) (l : List Entry) :
    (renumber_list i l).length = l.length := by
  induction l generalizing i with
  | nil => rfl
  | cons e r ih => simp [renumber_list, ih]

theorem renumber_list_pos {i : Int} {l : List Entry} :
    ∀ e ∈ renumber_list i l, i ≤ e.pos ∧ e.pos < i + (l.length : Int) := by
  induction l generalizing i with
  | nil => simp [renumber_list]
  | cons f r ih =>
    intro e he
    simp only [renumber_list, List.mem_cons] at he
    rcases he with rfl | he
    · refine ⟨le_refl _, ?_⟩
      simp only [List.length_cons]
      push_cast
      omega
    · have h := ih e he
      simp only [List.length_cons]
      push_cast at h ⊢
      omega

theorem map_pos_renumber (i : Int) (l : List Entry) :
    (renumber_list i l).map Entry.pos
      = (List.range l.length).map (fun (j : Nat) => i + (j : Int)) := by
  induction l generalizing i with
  | nil => rfl
  | cons f r ih =>
    have h1 : (renumber_list i (f :: r)).map Entry.pos
        = i :: (renumber_list (i + 1) r).map Entry.pos := rfl
    rw [h1, ih, List.length_cons, List.range_succ_eq_map, List.map_cons, List.map_map]
    refine congrArg₂ _ (by simp) ?_
    refine List.map_congr_left (fun j _ => ?_)
    simp only [Function.comp_apply, Nat.succ_eq_add_one]
    push_cast
    ring

theorem count_lt_renumber (l : List Entry) (i : Int) (j : Nat) :
    ((renumber_list i l).filter (fun e => decide (e.pos < i + (j : Int)))).length
      = min j l.length := by
  induction l generalizing i j with
  | nil => simp [renumber_list]
  | cons f r ih =>
    cases j with
    | zero =>
      rw [List.filter_eq_nil_iff.mpr, List.length_nil]
      · simp
      · intro e he
        have h := renumber_list_pos e he
        simp only [decide_eq_true_eq]
        push_cast
        omega
    | succ j' =>
      have harith : i + ((j' + 1 : Nat) : Int) = (i + 1) + (j' : Int) := by push_cast; ring
      simp only [renumber_list, harith]
      rw [List.filter_cons_of_pos, List.length_cons, ih (i + 1) j']
      · simp only [List.length_cons]
        omega
      · simp only [decide_eq_true_eq]
        omega

theorem find?_append_none {p : Entry → Bool} {l₁ : List Entry} (l₂ : List Entry)
    (h : l₁.find? p = none) : (l₁ ++ l₂).find? p = l₂.find? p := by
  induction l₁ with
  | nil => rfl
  | cons f r ih =>
    by_cases hf : p f
    · simp [List.find?_cons_of_pos _ hf] at h
    · rw [List.find?_cons_of_neg _ hf] at h
      rw [List.cons_append, List.find?_cons_of_neg _ hf]
      exact ih h

theorem selectAt_append_lt {K : List Entry} {c : Int} (h : ∀ e ∈ K, e.pos ≠ c)
    (M : List Entry) : selectAt (K ++ M) c = selectAt M c := by
  unfold selectAt
  rw [find?_append_none]
  exact List.find?_eq_none.mpr (fun e he => by simpa using h e he)

theorem selectAt_cons_self (e : Entry) (M : List Entry) :
    selectAt (e :: M) e.pos = some e.uid := by
  unfold selectAt
  rw [List.find?_cons_of_pos _ (by simp)]
  rfl

theorem selectAt_renumber_block (L : List Entry) (p : Int) (x : Uid) (M' : List Entry) :
    selectAt (renumber_list 0 (L ++ ⟨p, x⟩ :: M')) (L.length : Int) = some x := by
  rw [renumber_list_append]
  rw [selectAt_append_lt (fun e he => ?_)]
  · have h : renumber_list (0 + (L.length : Int)) ((⟨p, x⟩ : Entry) :: M')
        = (⟨0 + (L.length : Int), x⟩ : Entry)
            :: renumber_list (0 + (L.length : Int) + 1) M' := rfl
    rw [h]
    have h2 := selectAt_cons_self (⟨0 + (L.length : Int), x⟩ : Entry)
      (renumber_list (0 + (L.length : Int) + 1) M')
    simpa using h2
  · have hb := (renumber_list_pos e he).2
    omega

theorem last_match_append (t : Option Uid) (l₁ l₂ : List Uid) (i acc : Int) :
    last_match t (l₁ ++ l₂) i acc
      = last_match t l₂ (i + (l₁.length : Int)) (last_match t l₁ i acc) := by
  induction l₁ generalizing i acc with
  | nil => simp [last_match]
  | cons u r ih =>
    have h1 : last_match t ((u :: r) ++ l₂) i acc
        = last_match t (r ++ l₂) (i + 1) (if some u = t then i else acc) := rfl
    have h2 : last_match t (u :: r) i acc
        = last_match t r (i + 1) (if some u = t then i else acc) := rfl
    rw [h1, h2, ih]
    have h3 : i + 1 + (r.length : Int) = i + (((u :: r).length : Nat) : Int) := by
      simp only [List.length_cons]
      push_cast
      ring
    rw [h3]

theorem last_match_no_match {t : Option Uid} {l : List Uid} (h : ∀ u ∈ l, some u ≠ t) :
    ∀ i acc, last_match t l i acc = acc := by
  induction l with
  | nil => intro i acc; rfl
  | cons u r ih =>
    intro i acc
    rw [last_match, if_neg (h u (List.mem_cons_self u r))]
    exact ih (fun v hv => h v (List.mem_cons_of_mem u hv)) _ _

theorem last_match_block {x : Uid} {D B : List Uid} (h : ∀ u ∈ B, u ≠ x) (i acc : Int) :
    last_match (some x) (D ++ x :: B) i acc = i + (D.length : Int) := by
  rw [last_match_append, last_match, if_pos rfl]
  exact last_match_no_match (fun u hu he => h u hu (Option.some.inj he)) _ _

/-! ## Master lemmas about `renumber_positions` and `prune_past`

The shared state shape is `K ++ m₀ :: M'` with the cursor on `m₀`: every
row of `K` sits strictly before the cursor, `m₀ :: M'` is strictly
ascending, and no row of `M'` carries the cursor song's uid (otherwise the
cursor-tracking fold of `_renumber_positions` would land on a later
occurrence). -/

theorem contains_int_iff (l : List Int) (q : Int) : l.contains q = true ↔ q ∈ l := by
  simp [List.contains, List.elem_iff]

theorem countP_not_add (p : Entry → Bool) (l : List Entry) :
    (l.filter (fun e => !(p e))).length + l.countP p = l.length := by
  induction l with
  | nil => rfl
  | cons e r ih =>
    by_cases h : p e
    · rw [List.filter_cons_of_neg (by simp [h]), List.countP_cons, List.length_cons]
      simp only [h, if_pos]
      omega
    · rw [List.filter_cons_of_pos (by simp [h]), List.countP_cons,
        List.length_cons, List.length_cons, if_neg h]
      omega

theorem prune_past_mk (lim : Nat) (E : List Entry) (c r : Int) :
    prune_past lim ⟨E, c, r⟩ =
      renumber_positions
        (if lim < (E.filter (fun e => decide (e.pos < c))).length then
          (⟨E.filter (fun e =>
              !((((sortByPos (E.filter (fun e => decide (e.pos < c)))).take
                  ((E.filter (fun e => decide (e.pos < c))).length - lim)).map
                    Entry.pos).contains e.pos)), c, r⟩ : TL)
        else ⟨E, c, r⟩) := rfl

theorem renumber_block {K : List Entry} {p : Int} {x : Uid} {M' : List Entry} {r : Int}
    (hK : ∀ e ∈ K, e.pos < p)
    (hMp : ((⟨p, x⟩ : Entry) :: M').Pairwise (fun a b => a.pos < b.pos))
    (h0 : 0 ≤ p)
    (hU : ∀ e ∈ M', e.uid ≠ x) :
    renumber_positions ⟨K ++ ⟨p, x⟩ :: M', p, r⟩ =
      ⟨renumber_list 0 (sortByPos K ++ ⟨p, x⟩ :: M'), (K.length : Int), r⟩ := by
  have hKM : ∀ y ∈ K, ∀ z ∈ (⟨p, x⟩ : Entry) :: M', y.pos < z.pos := by
    intro y hy z hz
    rcases List.mem_cons.mp hz with rfl | hz'
    · exact hK y hy
    · exact lt_trans (hK y hy) (List.rel_of_pairwise_cons hMp hz')
  have hsorted : sortByPos (K ++ ⟨p, x⟩ :: M') = sortByPos K ++ ⟨p, x⟩ :: M' :=
    sortByPos_append_hi hMp hKM
  have hcur : selectAt (K ++ ⟨p, x⟩ :: M') p = some x := by
    rw [selectAt_append_lt (fun e he => ne_of_lt (hK e he))]
    exact selectAt_cons_self ⟨p, x⟩ M'
  have hlast : last_match (some x)
      ((sortByPos K ++ ⟨p, x⟩ :: M').map Entry.uid) 0 (-1) = (K.length : Int) := by
    rw [List.map_append, List.map_cons]
    rw [last_match_block (fun u hu => ?_) 0 (-1)]
    · simp [length_sortByPos]
    · obtain ⟨e, he, rfl⟩ := List.mem_map.mp hu
      exact hU e he
  show (⟨renumber_list 0 (sortByPos (K ++ ⟨p, x⟩ :: M')),
        last_match (if 0 ≤ p then selectAt (K ++ ⟨p, x⟩ :: M') p else none)
          ((sortByPos (K ++ ⟨p, x⟩ :: M')).map Entry.uid) 0 (-1), r⟩ : TL) = _
  rw [if_pos h0, hcur, hsorted, hlast]

theorem prune_block (lim : Nat) (p : Int) (x : Uid) (M' : List Entry)
    {K : List Entry} {r : Int}
    (hK : ∀ e ∈ K, e.pos < p)
    (hMp : ((⟨p, x⟩ : Entry) :: M').Pairwise (fun a b => a.pos < b.pos))
    (h0 : 0 ≤ p)
    (hU : ∀ e ∈ M', e.uid ≠ x) :
    ∃ K₁ : List Entry, (∀ e ∈ K₁, e.pos < p) ∧ K₁.length ≤ lim ∧
      prune_past lim ⟨K ++ ⟨p, x⟩ :: M', p, r⟩ =
        ⟨renumber_list 0 (sortByPos K₁ ++ ⟨p, x⟩ :: M'), (K₁.length : Int), r⟩ := by
  have hpast : (K ++ (⟨p, x⟩ : Entry) :: M').filter (fun e => decide (e.pos < p)) = K := by
    rw [List.filter_append,
      List.filter_eq_self.mpr (fun e he => by simpa using hK e he),
      List.filter_cons_of_neg (by simp),
      List.filter_eq_nil_iff.mpr (fun e he => by
        simp only [decide_eq_true_eq, not_lt]
        exact le_of_lt (List.rel_of_pairwise_cons hMp he)),
      List.append_nil]
  by_cases hbig : lim < K.length
  · refine ⟨K.filter (fun e =>
      !(((((sortByPos K).take (K.length - lim)).map Entry.pos)).contains e.pos)),
      fun e he => hK e (List.mem_filter.mp he).1, ?_, ?_⟩
    · -- length bound: at least `K.length - lim` rows are deleted
      have htake_len : ((sortByPos K).take (K.length - lim)).length = K.length - lim := by
        rw [List.length_take, length_sortByPos]
        omega
      have htake_all : ((sortByPos K).take (K.length - lim)).countP
          (fun e => (((sortByPos K).take (K.length - lim)).map Entry.pos).contains e.pos)
            = K.length - lim := by
        rw [List.countP_eq_length.mpr, htake_len]
        intro e he
        exact (contains_int_iff _ _).mpr (List.mem_map_of_mem Entry.pos he)
      have hcount : K.length - lim ≤ K.countP
          (fun e => (((sortByPos K).take (K.length - lim)).map Entry.pos).contains e.pos) := by
        have h1 : K.countP
            (fun e => (((sortByPos K).take (K.length - lim)).map Entry.pos).contains e.pos)
            = (sortByPos K).countP
              (fun e => (((sortByPos K).take (K.length - lim)).map Entry.pos).contains e.pos) :=
          ((sortByPos_perm K).countP_eq _).symm
        have h2 : (sortByPos K).countP
            (fun e => (((sortByPos K).take (K.length - lim)).map Entry.pos).contains e.pos)
            = ((sortByPos K).take (K.length - lim)).countP
                (fun e => (((sortByPos K).take (K.length - lim)).map Entry.pos).contains e.pos)
              + ((sortByPos K).drop (K.length - lim)).countP
                (fun e => (((sortByPos K).take (K.length - lim)).map Entry.pos).contains e.pos) := by
          rw [← List.countP_append, List.take_append_drop]
        omega
      have hsum := countP_not_add
        (fun e => (((sortByPos K).take (K.length - lim)).map Entry.pos).contains e.pos) K
      omega
    · -- the prune step deletes exactly the rows of `K` at positions in `ptd`
      have hptd_lt : ∀ q ∈ ((sortByPos K).take (K.length - lim)).map Entry.pos,
          q < p := by
        intro q hq
        obtain ⟨f, hf, rfl⟩ := List.mem_map.mp hq
        exact hK f (mem_sortByPos.mp (List.mem_of_mem_take hf))
      have hsurv : (K ++ (⟨p, x⟩ : Entry) :: M').filter (fun e =>
            !((((sortByPos K).take (K.length - lim)).map Entry.pos).contains e.pos))
          = K.filter (fun e =>
            !((((sortByPos K).take (K.length - lim)).map Entry.pos).contains e.pos))
              ++ (⟨p, x⟩ : Entry) :: M' := by
        rw [List.filter_append]
        refine congrArg₂ _ rfl (List.filter_eq_self.mpr (fun y hy => ?_))
        have hy' : p ≤ y.pos := by
          rcases List.mem_cons.mp hy with rfl | hy''
          · exact le_refl _
          · exact le_of_lt (List.rel_of_pairwise_cons hMp hy'')
        rw [Bool.not_eq_true', Bool.eq_false_iff]
        exact fun h => absurd (hptd_lt _ ((contains_int_iff _ _).mp h)) (not_lt.mpr hy')
      rw [prune_past_mk, hpast, if_pos hbig, hsurv]
      exact renumber_block (fun e he => hK e (List.mem_filter.mp he).1) hMp h0 hU
  · refine ⟨K, hK, by omega, ?_⟩
    rw [prune_past_mk, hpast, if_neg hbig]
    exact renumber_block hK hMp h0 hU

theorem append_song_eq {uid : Uid} (hv : valid_uid uid = true) (s : TL) :
    append_song uid s =
      some (prune_past MAX_PAST_ENTRIES
        ⟨s.entries.filter (fun e => decide (e.pos ≤ s.cursor)) ++ [⟨s.cursor + 1, uid⟩],
         s.cursor + 1, 0⟩) := by
  unfold append_song
  rw [if_pos hv]
  rfl

/-! ## Claim theorems -/

/-- C1: for every valid song reference `ref` and every starting timeline
state (with the cursor at its initial value -1 or beyond), `append_song`
deletes every row with position greater than the cursor, inserts `ref` at
`cursor+1`, sets the cursor to the inserted entry's position, and resets the
resume offset to 0.  In the state `append_song` leaves behind (after its
pruning step, which renumbers), the cursor sits on the most recently
appended entry — the unique entry of maximal position, holding `ref` — and
no entry with a position above the cursor persists; applied after each call
of any sequence of `append_song` calls, this gives the claim's consequence
for sequences. -/
theorem claim1_appendSong (s : TL) (ref : Uid)
    (hv : valid_uid ref = true) (hc : -1 ≤ s.cursor) :
    ∃ s' : TL, append_song ref s = some s' ∧
      (delete_future s.cursor s).entries
        = s.entries.filter (fun e => decide (e.pos ≤ s.cursor)) ∧
      s'.resume = 0 ∧
      s'.cursor = (s'.entries.length : Int) - 1 ∧
      selectAt s'.entries s'.cursor = some ref ∧
      (∀ e ∈ s'.entries, e.pos ≤ s'.cursor) := by
  have hK : ∀ e ∈ s.entries.filter (fun e => decide (e.pos ≤ s.cursor)),
      e.pos < s.cursor + 1 := by
    intro e he
    have h := (List.mem_filter.mp he).2
    simp only [decide_eq_true_eq] at h
    omega
  obtain ⟨K₁, hK₁, hlen, heq⟩ := prune_block MAX_PAST_ENTRIES (s.cursor + 1) ref []
    hK (List.pairwise_singleton _ _) (by omega) (fun e he => absurd he (List.not_mem_nil e))
  refine ⟨⟨renumber_list 0 (sortByPos K₁ ++ ⟨s.cursor + 1, ref⟩ :: []),
      (K₁.length : Int), 0⟩, ?_, rfl, rfl, ?_, ?_, ?_⟩
  · rw [append_song_eq hv, heq]
  · show (K₁.length : Int)
      = ((renumber_list 0 (sortByPos K₁ ++ ⟨s.cursor + 1, ref⟩ :: [])).length : Int) - 1
    rw [length_renumber_list, List.length_append, length_sortByPos, List.length_cons,
      List.length_nil]
    push_cast
    ring
  · show selectAt (renumber_list 0 (sortByPos K₁ ++ ⟨s.cursor + 1, ref⟩ :: []))
      (K₁.length : Int) = some ref
    have h := selectAt_renumber_block (sortByPos K₁) (s.cursor + 1) ref []
    rwa [length_sortByPos] at h
  · intro e he
    have h := (renumber_list_pos e he).2
    simp only [List.length_append, length_sortByPos, List.length_cons, List.length_nil] at h
    show e.pos ≤ (K₁.length : Int)
    push_cast at h
    omega

/-- Witness for C1 at a concrete input: the empty timeline and a valid
16-character uid. -/
theorem claim1_appendSong_witness :
    valid_uid "aaaaaaaaaaaaaaaa" = true ∧ -1 ≤ (⟨[], -1, 5⟩ : TL).cursor ∧
      (∃ s' : TL, append_song "aaaaaaaaaaaaaaaa" ⟨[], -1, 5⟩ = some s' ∧
        (delete_future (⟨[], -1, 5⟩ : TL).cursor ⟨[], -1, 5⟩).entries
          = (⟨[], -1, 5⟩ : TL).entries.filter
              (fun e => decide (e.pos ≤ (⟨[], -1, 5⟩ : TL).cursor)) ∧
        s'.resume = 0 ∧
        s'.cursor = (s'.entries.length : Int) - 1 ∧
        selectAt s'.entries s'.cursor = some "aaaaaaaaaaaaaaaa" ∧
        (∀ e ∈ s'.entries, e.pos ≤ s'.cursor)) :=
  ⟨by decide, by decide, claim1_appendSong ⟨[], -1, 5⟩ "aaaaaaaaaaaaaaaa" (by decide) (by decide)⟩

theorem resume_renumber_positions (t : TL) : (renumber_positions t).resume = t.resume := rfl

theorem resume_prune_past (lim : Nat) (t : TL) : (prune_past lim t).resume = t.resume := by
  obtain ⟨E, c, r⟩ := t
  rw [prune_past_mk]
  split <;> rfl

theorem append_song_list_eq (us : List Uid) (hne : us.isEmpty = false)
    (hv : us.all valid_uid = true) (s : TL) :
    append_song_list us s =
      some (prune_past MAX_PAST_ENTRIES
        ⟨s.entries.filter (fun e => decide (e.pos ≤ s.cursor)) ++ insertList (s.cursor + 1) us,
         s.cursor + 1, 0⟩) := by
  unfold append_song_list
  rw [if_neg (by simp [hne]), if_pos hv]
  rfl

theorem skip_back_cases (cat : Catalog) (s : TL) :
    skip_back cat s = (none, s) ∨
    ∃ p u, 0 < s.cursor ∧ sb_find s.entries cat (s.cursor - 1).toNat = some (p, u) ∧
      skip_back cat s = (some u, set_cursor ((p : Nat) : Int) s) := by
  unfold skip_back
  by_cases hc : s.cursor ≤ 0
  · rw [if_pos hc]
    exact Or.inl rfl
  · rw [if_neg hc]
    rcases hsb : sb_find s.entries cat (s.cursor - 1).toNat with _ | ⟨p, u⟩
    · exact Or.inl rfl
    · exact Or.inr ⟨p, u, by omega, rfl, rfl⟩

theorem skip_forward_cases (cat : Catalog) (n : Nat) (s : TL) :
    skip_forward cat n s = (none, s) ∨
    (∃ u, (s.entries.filter (fun e => decide (s.cursor < e.pos))).length = 0 ∧
      get_random_song cat n = some u ∧
      skip_forward cat n s
        = (some u, ⟨s.entries ++ [⟨s.cursor + 1, u⟩], s.cursor + 1, 0⟩)) ∨
    (∃ e, (sortByPos (s.entries.filter (fun e => decide (s.cursor < e.pos)))).find?
        (fun e => cat.contains e.uid) = some e ∧
      skip_forward cat n s = (some e.uid, set_cursor e.pos s)) := by
  unfold skip_forward
  by_cases hf : (s.entries.filter (fun e => decide (s.cursor < e.pos))).length = 0
  · rw [if_pos hf]
    rcases hr : get_random_song cat n with _ | u
    · exact Or.inl rfl
    · exact Or.inr (Or.inl ⟨u, hf, rfl, rfl⟩)
  · rw [if_neg hf]
    rcases hfind : (sortByPos (s.entries.filter (fun e => decide (s.cursor < e.pos)))).find?
        (fun e => cat.contains e.uid) with _ | e
    · refine Or.inl ?_
      rw [hfind]
    · refine Or.inr (Or.inr ⟨e, hfind, ?_⟩)
      rw [hfind]

/-- C2 (amended): `append_song`, `append_song_list` (on a nonempty list),
`skip_back` and `skip_forward` (whenever they return a target) and
`advance_cursor` all move the cursor through `_set_cursor`, which resets
`resume_ms` to 0; `clear_timeline` and `_renumber_positions`, by contrast,
write the cursor position directly in SQL and leave `resume_ms` unchanged. -/
theorem claim2_resume_reset (cat : Catalog) (n : Nat) (s : TL) (u : Uid) (us : List Uid) :
    (∀ s', append_song u s = some s' → s'.resume = 0) ∧
    (∀ s', us ≠ [] → append_song_list us s = some s' → s'.resume = 0) ∧
    ((skip_back cat s).1.isSome = true → (skip_back cat s).2.resume = 0) ∧
    ((skip_forward cat n s).1.isSome = true → (skip_forward cat n s).2.resume = 0) ∧
    (advance_cursor s).resume = 0 ∧
    (clear_timeline s).resume = s.resume ∧
    (renumber_positions s).resume = s.resume := by
  refine ⟨?_, ?_, ?_, ?_, rfl, rfl, rfl⟩
  · intro s' h
    by_cases hv : valid_uid u = true
    · rw [append_song_eq hv] at h
      cases h
      rw [resume_prune_past]
    · unfold append_song at h
      rw [if_neg hv] at h
      cases h
  · intro s' hne h
    have hne' : us.isEmpty = false := by
      cases us
      · exact absurd rfl hne
      · rfl
    by_cases hv : us.all valid_uid = true
    · rw [append_song_list_eq us hne' hv] at h
      cases h
      rw [resume_prune_past]
    · unfold append_song_list at h
      rw [if_neg (by simp [hne']), if_neg hv] at h
      cases h
  · intro h
    rcases skip_back_cases cat s with heq | ⟨p, v, _, _, heq⟩
    · rw [heq] at h
      simp at h
    · rw [heq]
      rfl
  · intro h
    rcases skip_forward_cases cat n s with heq | ⟨v, _, _, heq⟩ | ⟨e, _, heq⟩
    · rw [heq] at h
      simp at h
    · rw [heq]
    · rw [heq]
      rfl

/-- Witness for C2 at concrete inputs: a `skip_back` that returns a target
resets the offset, as does `advance_cursor`. -/
theorem claim2_resume_reset_witness :
    (skip_back ["aaaaaaaaaaaaaaaa"]
      ⟨[⟨0, "aaaaaaaaaaaaaaaa"⟩, ⟨1, "bbbbbbbbbbbbbbbb"⟩], 1, 9⟩).2.resume = 0 ∧
    (advance_cursor ⟨[⟨0, "aaaaaaaaaaaaaaaa"⟩, ⟨1, "bbbbbbbbbbbbbbbb"⟩], 1, 9⟩).resume = 0 := by
  have h := claim2_resume_reset ["aaaaaaaaaaaaaaaa"] 0
    ⟨[⟨0, "aaaaaaaaaaaaaaaa"⟩, ⟨1, "bbbbbbbbbbbbbbbb"⟩], 1, 9⟩ "x" []
  exact ⟨h.2.2.1 (by decide), h.2.2.2.2.1⟩

/-- Counterexample to C2 as stated: `clear_timeline` mutates the cursor
position (to -1) yet leaves a nonzero resume offset in place, and so does
the renumbering (`_renumber_positions`) performed during pruning. -/
theorem claim2_cex :
    ¬ ((clear_timeline ⟨[⟨0, "s"⟩], 0, 7⟩).resume = 0) ∧
    ¬ ((renumber_positions ⟨[⟨0, "s"⟩], 0, 7⟩).resume = 0) := by
  constructor <;> decide

theorem insertList_pos_ge (p : Int) (us : List Uid) :
    ∀ e ∈ insertList p us, p ≤ e.pos := by
  induction us generalizing p with
  | nil => simp [insertList]
  | cons u rest ih =>
    intro e he
    rcases List.mem_cons.mp he with rfl | he'
    · exact le_refl _
    · have h := ih (p + 1) e he'
      omega

theorem insertList_pairwise (p : Int) (us : List Uid) :
    (insertList p us).Pairwise (fun a b => a.pos < b.pos) := by
  induction us generalizing p with
  | nil => exact List.Pairwise.nil
  | cons u rest ih =>
    refine List.Pairwise.cons (fun b hb => ?_) (ih (p + 1))
    have h := insertList_pos_ge (p + 1) rest b hb
    show p < b.pos
    omega

theorem insertList_uid_mem (p : Int) (us : List Uid) :
    ∀ e ∈ insertList p us, e.uid ∈ us := by
  induction us generalizing p with
  | nil => simp [insertList]
  | cons u rest ih =>
    intro e he
    rcases List.mem_cons.mp he with rfl | he'
    · exact List.mem_cons_self _ _
    · exact List.mem_cons_of_mem _ (ih (p + 1) e he')

theorem count_past_mk (E : List Entry) (c r : Int) :
    count_past ⟨E, c, r⟩ = (E.filter (fun e => decide (e.pos < c))).length := rfl

theorem count_past_renumber_zero (L : List Entry) (j : Nat) :
    ((renumber_list 0 L).filter (fun e => decide (e.pos < (j : Int)))).length
      = min j L.length := by
  have h := count_lt_renumber L 0 j
  simpa using h

/-- C3 (amended): after `append_song` the past-entry count is at most
`W = 100`, and likewise after `append_song_list` provided the first uid of
the list does not recur later in the list (otherwise the renumbering step
tracks the cursor to the *last* occurrence of that uid, leaving more than
`W` entries behind it); `skip_forward`'s random-song append, by contrast,
performs no pruning at all, so it does not maintain the bound (see the
counterexample). -/
theorem claim3_append_past_bound (s : TL) (u : Uid) (u₀ : Uid) (rest : List Uid)
    (hc : -1 ≤ s.cursor) (hdup : u₀ ∉ rest) :
    (∀ s', append_song u s = some s' → count_past s' ≤ 100) ∧
    (∀ s', append_song_list (u₀ :: rest) s = some s' → count_past s' ≤ 100) := by
  have hM : MAX_PAST_ENTRIES = 100 := rfl
  have hK : ∀ e ∈ s.entries.filter (fun e => decide (e.pos ≤ s.cursor)),
      e.pos < s.cursor + 1 := by
    intro e he
    have h2 := (List.mem_filter.mp he).2
    simp only [decide_eq_true_eq] at h2
    omega
  constructor
  · intro s' h
    by_cases hv : valid_uid u = true
    · rw [append_song_eq hv] at h
      obtain ⟨K₁, hK₁, hlen, heq⟩ := prune_block MAX_PAST_ENTRIES (s.cursor + 1) u []
        hK (List.pairwise_singleton _ _)
        (by omega) (fun e he => absurd he (List.not_mem_nil e))
      rw [heq] at h
      cases h
      rw [count_past_mk, count_past_renumber_zero]
      have h3 := min_le_left K₁.length
        (sortByPos K₁ ++ (⟨s.cursor + 1, u⟩ : Entry) :: []).length
      omega
    · unfold append_song at h
      rw [if_neg hv] at h
      cases h
  · intro s' h
    by_cases hv : (u₀ :: rest).all valid_uid = true
    · rw [append_song_list_eq (u₀ :: rest) rfl hv] at h
      have hins : insertList (s.cursor + 1) (u₀ :: rest)
          = (⟨s.cursor + 1, u₀⟩ : Entry) :: insertList (s.cursor + 1 + 1) rest := rfl
      rw [hins] at h
      obtain ⟨K₁, hK₁, hlen, heq⟩ := prune_block MAX_PAST_ENTRIES (s.cursor + 1) u₀
        (insertList (s.cursor + 1 + 1) rest) hK
        (by
          have h4 := insertList_pairwise (s.cursor + 1) (u₀ :: rest)
          rwa [hins] at h4)
        (by omega)
        (fun e he h5 => hdup (h5 ▸ insertList_uid_mem _ rest e he))
      rw [heq] at h
      cases h
      rw [count_past_mk, count_past_renumber_zero]
      have h3 := min_le_left K₁.length
        (sortByPos K₁ ++ (⟨s.cursor + 1, u₀⟩ : Entry) :: insertList (s.cursor + 1 + 1) rest).length
      omega
    · unfold append_song_list at h
      rw [if_neg (by simp), if_neg hv] at h
      cases h

/-- Witness for C3 at concrete inputs: appending one song to a one-song
timeline, and a two-song queue with distinct uids. -/
theorem claim3_append_past_bound_witness :
    (∀ s', append_song "cccccccccccccccc" ⟨[⟨0, "aaaaaaaaaaaaaaaa"⟩], 0, 0⟩ = some s' →
      count_past s' ≤ 100) ∧
    (∀ s', append_song_list ["aaaaaaaaaaaaaaaa", "bbbbbbbbbbbbbbbb"]
        ⟨[⟨0, "aaaaaaaaaaaaaaaa"⟩], 0, 0⟩ = some s' → count_past s' ≤ 100) :=
  claim3_append_past_bound ⟨[⟨0, "aaaaaaaaaaaaaaaa"⟩], 0, 0⟩ "cccccccccccccccc"
    "aaaaaaaaaaaaaaaa" ["bbbbbbbbbbbbbbbb"] (by decide) (by decide)

/-- Counterexample to C3 as stated: on a timeline whose past already holds
100 entries (`fullPast`, the state after 101 `append_song` calls), the
random-song append performed by `skip_forward` on an empty future appends
an entry and advances the cursor but never prunes, leaving 101 past
entries. -/
theorem claim3_cex :
    (skip_forward ["x"] 0 fullPast).1.isSome = true ∧
    (skip_forward ["x"] 0 fullPast).2.entries.length = fullPast.entries.length + 1 ∧
    100 < count_past (skip_forward ["x"] 0 fullPast).2 := by
  refine ⟨?_, ?_, ?_⟩ <;> decide

theorem selectAt_some {E : List Entry} {c : Int} {x : Uid}
    (h : selectAt E c = some x) : ∃ f ∈ E, f.pos = c ∧ f.uid = x := by
  unfold selectAt at h
  rcases hf : E.find? (fun e => e.pos == c) with _ | f
  · rw [hf] at h
    cases h
  · rw [hf] at h
    refine ⟨f, List.mem_of_find?_eq_some hf, ?_, ?_⟩
    · have h2 := List.find?_some hf
      simpa using h2
    · simpa using h

/-- C4 (amended): for every timeline state with pairwise-distinct,
increasingly listed positions, a nonnegative cursor holding an entry whose
uid does not recur at any position greater than the cursor, and more than
`W = 100` past entries, the prune/renumber step yields contiguous 0-based
positions, a past-entry count of at most `W`, and the same song uid at the
cursor.  (Without the no-recurrence proviso the cursor tracks the *last*
occurrence of the uid and the past-count bound fails — see the
counterexample.) -/
theorem claim4_prune_renumber (s : TL) (x : Uid)
    (hsorted : s.entries.Pairwise (fun a b => a.pos < b.pos))
    (hcur : selectAt s.entries s.cursor = some x)
    (hlater : ∀ e ∈ s.entries, s.cursor < e.pos → e.uid ≠ x)
    (h0 : 0 ≤ s.cursor)
    (hpast : 100 < count_past s) :
    (prune_past 100 s).entries.map Entry.pos
        = (List.range (prune_past 100 s).entries.length).map (fun (j : Nat) => (j : Int)) ∧
    count_past (prune_past 100 s) ≤ 100 ∧
    selectAt (prune_past 100 s).entries (prune_past 100 s).cursor = some x := by
  obtain ⟨E, c, r⟩ := s
  dsimp only at hsorted hcur hlater h0 hpast
  obtain ⟨f, hfmem, hfpos, hfuid⟩ := selectAt_some hcur
  have hf2 : f = (⟨c, x⟩ : Entry) := by
    obtain ⟨fp, fu⟩ := f
    dsimp only at hfpos hfuid
    rw [hfpos, hfuid]
  rw [hf2] at hfmem
  obtain ⟨A, B, hE⟩ := List.append_of_mem hfmem
  subst hE
  rw [List.pairwise_append] at hsorted
  obtain ⟨hA, hfB, hcross⟩ := hsorted
  have hAlt : ∀ e ∈ A, e.pos < c := fun e he => hcross e he _ (List.mem_cons_self _ _)
  have hU : ∀ e ∈ B, e.uid ≠ x := fun e he =>
    hlater e (List.mem_append_right _ (List.mem_cons_of_mem _ he))
      (List.rel_of_pairwise_cons hfB he)
  obtain ⟨K₁, hK₁, hlen, heq⟩ := prune_block 100 c x B hAlt hfB h0 hU
  rw [heq]
  refine ⟨?_, ?_, ?_⟩
  · show (renumber_list 0 (sortByPos K₁ ++ (⟨c, x⟩ : Entry) :: B)).map Entry.pos = _
    rw [map_pos_renumber, length_renumber_list]
    refine List.map_congr_left (fun j _ => ?_)
    simp
  · rw [count_past_mk, count_past_renumber_zero]
    have h3 := min_le_left K₁.length
      (sortByPos K₁ ++ (⟨c, x⟩ : Entry) :: B).length
    omega
  · show selectAt (renumber_list 0 (sortByPos K₁ ++ (⟨c, x⟩ : Entry) :: B))
      (K₁.length : Int) = some x
    have h := selectAt_renumber_block (sortByPos K₁) c x B
    rwa [length_sortByPos] at h

set_option maxRecDepth 100000 in
/-- Witness for C4 at a concrete input: a strictly sorted 102-entry
timeline with the cursor on its last entry. -/
theorem claim4_prune_renumber_witness :
    prunableState.entries.Pairwise (fun a b => a.pos < b.pos) ∧
    selectAt prunableState.entries prunableState.cursor = some "X" ∧
    (∀ e ∈ prunableState.entries, prunableState.cursor < e.pos → e.uid ≠ "X") ∧
    0 ≤ prunableState.cursor ∧
    100 < count_past prunableState ∧
    ((prune_past 100 prunableState).entries.map Entry.pos
        = (List.range (prune_past 100 prunableState).entries.length).map
            (fun (j : Nat) => (j : Int)) ∧
      count_past (prune_past 100 prunableState) ≤ 100 ∧
      selectAt (prune_past 100 prunableState).entries
        (prune_past 100 prunableState).cursor = some "X") :=
  ⟨by decide, by decide, by decide, by decide, by decide,
    claim4_prune_renumber prunableState "X" (by decide) (by decide) (by decide)
      (by decide) (by decide)⟩

set_option maxRecDepth 100000 in
/-- Counterexample to C4 as stated: in `dupAfterCursor` the cursor's song
`"X"` recurs at position 102 (after the cursor), so the renumbering tracks
the cursor to that last occurrence and the resulting past-entry count is
101 > 100. -/
theorem claim4_cex :
    100 < count_past dupAfterCursor ∧
    100 < count_past (prune_past 100 dupAfterCursor) := by
  constructor <;> decide

theorem skip_back_none_unchanged {cat : Catalog} {s : TL}
    (h : (skip_back cat s).1 = none) : (skip_back cat s).2 = s := by
  rcases skip_back_cases cat s with heq | ⟨p, u, _, _, heq⟩
  · rw [heq]
  · rw [heq] at h
    simp at h

theorem skip_forward_none_unchanged {cat : Catalog} {n : Nat} {s : TL}
    (h : (skip_forward cat n s).1 = none) : (skip_forward cat n s).2 = s := by
  rcases skip_forward_cases cat n s with heq | ⟨u, _, _, heq⟩ | ⟨e, _, heq⟩
  · rw [heq]
  · rw [heq] at h
    simp at h
  · rw [heq] at h
    simp at h

theorem get_random_song_mem {cat : Catalog} (hne : cat ≠ []) (n : Nat) :
    ∃ u, get_random_song cat n = some u ∧ u ∈ cat := by
  match cat, hne with
  | c :: cs, _ =>
    have hlt : n % (c :: cs).length < (c :: cs).length := Nat.mod_lt _ (by simp)
    refine ⟨(c :: cs).get ⟨n % (c :: cs).length, hlt⟩, ?_, List.get_mem _ _ _⟩
    show (c :: cs).get? (n % (c :: cs).length) = _
    rw [List.get?_eq_get hlt]

/-- C10: whenever `skip_back` or `skip_forward(shuffle=false)` returns none
(cursor at/before 0, empty catalog, or no resolvable entry in the scanned
direction), the whole timeline state — entries, cursor position and resume
offset — is left unchanged by the call. -/
theorem claim10_none_no_mutation (cat : Catalog) (n : Nat) (s : TL) :
    ((skip_back cat s).1 = none → (skip_back cat s).2 = s) ∧
    ((skip_forward cat n s).1 = none → (skip_forward cat n s).2 = s) :=
  ⟨fun h => skip_back_none_unchanged h, fun h => skip_forward_none_unchanged h⟩

/-- Witness for C10 at concrete inputs: the empty timeline with an empty
catalog, where both calls return none. -/
theorem claim10_none_no_mutation_witness :
    (skip_back [] ⟨[], -1, 4⟩).2 = (⟨[], -1, 4⟩ : TL) ∧
    (skip_forward [] 0 ⟨[], -1, 4⟩).2 = (⟨[], -1, 4⟩ : TL) :=
  ⟨(claim10_none_no_mutation [] 0 ⟨[], -1, 4⟩).1 (by decide),
   (claim10_none_no_mutation [] 0 ⟨[], -1, 4⟩).2 (by decide)⟩

/-- C8: on a timeline with no entry beyond the cursor, `skip_forward` with a
nonempty catalog returns a uid resolvable in the catalog, appends exactly
one entry (at `cursor+1`) and advances the cursor; with an empty catalog it
returns none and leaves the timeline and cursor (the whole state)
unchanged. -/
theorem claim8_skip_forward_empty_future (cat : Catalog) (n : Nat) (s : TL)
    (hf : (s.entries.filter (fun e => decide (s.cursor < e.pos))).length = 0) :
    (cat = [] → skip_forward cat n s = (none, s)) ∧
    (cat ≠ [] → ∃ u, cat.contains u = true ∧
      skip_forward cat n s
        = (some u, ⟨s.entries ++ [⟨s.cursor + 1, u⟩], s.cursor + 1, 0⟩) ∧
      (skip_forward cat n s).2.entries.length = s.entries.length + 1) := by
  constructor
  · intro hcat
    subst hcat
    unfold skip_forward
    rw [if_pos hf]
    rfl
  · intro hcat
    obtain ⟨u, hu, humem⟩ := get_random_song_mem hcat n
    have heq : skip_forward cat n s
        = (some u, ⟨s.entries ++ [⟨s.cursor + 1, u⟩], s.cursor + 1, 0⟩) := by
      unfold skip_forward
      rw [if_pos hf, hu]
      rfl
    refine ⟨u, ?_, heq, ?_⟩
    · show cat.elem u = true
      exact List.elem_iff.mpr humem
    · rw [heq]
      simp

/-- Witness for C8 at concrete inputs: the empty timeline (empty future)
with a one-song catalog. -/
theorem claim8_skip_forward_empty_future_witness :
    ((⟨[], -1, 0⟩ : TL).entries.filter
        (fun e => decide ((⟨[], -1, 0⟩ : TL).cursor < e.pos))).length = 0 ∧
    ∃ u, (["aaaaaaaaaaaaaaaa"] : Catalog).contains u = true ∧
      skip_forward ["aaaaaaaaaaaaaaaa"] 0 ⟨[], -1, 0⟩
        = (some u, ⟨[] ++ [⟨(-1 : Int) + 1, u⟩], (-1 : Int) + 1, 0⟩) ∧
      (skip_forward ["aaaaaaaaaaaaaaaa"] 0 ⟨[], -1, 0⟩).2.entries.length
        = ([] : List Entry).length + 1 :=
  ⟨by decide,
   (claim8_skip_forward_empty_future ["aaaaaaaaaaaaaaaa"] 0 ⟨[], -1, 0⟩ (by decide)).2
     (by decide)⟩

theorem sb_find_spec {l : List Entry} {cat : Catalog} {q : Nat} {p : Nat} {u : Uid}
    (h : sb_find l cat q = some (p, u)) :
    p ≤ q ∧ selectAt l ((p : Nat) : Int) = some u ∧ cat.contains u = true ∧
    ∀ j : Nat, p < j → j ≤ q → ∀ v, selectAt l ((j : Nat) : Int) = some v →
      cat.contains v = false := by
  induction q with
  | zero =>
    unfold sb_find at h
    rcases hs : selectAt l 0 with _ | u'
    · rw [hs] at h
      cases h
    · rw [hs] at h
      dsimp only at h
      by_cases hc : cat.contains u' = true
      · rw [if_pos hc] at h
        obtain ⟨h1, h2⟩ : 0 = p ∧ u' = u := by
          have h3 := Option.some.inj h
          exact ⟨congrArg Prod.fst h3, congrArg Prod.snd h3⟩
        subst h1
        subst h2
        exact ⟨le_refl _, by simpa using hs, hc, fun j hj1 hj2 => absurd hj2 (by omega)⟩
      · rw [if_neg hc] at h
        cases h
  | succ q' ih =>
    unfold sb_find at h
    rcases hs : selectAt l ((q' + 1 : Nat) : Int) with _ | u'
    · rw [hs] at h
      dsimp only at h
      obtain ⟨h1, h2, h3, h4⟩ := ih h
      refine ⟨by omega, h2, h3, ?_⟩
      intro j hj1 hj2 v hv
      by_cases hj : j = q' + 1
      · subst hj
        rw [hv] at hs
        cases hs
      · exact h4 j hj1 (by omega) v hv
    · rw [hs] at h
      dsimp only at h
      by_cases hc : cat.contains u' = true
      · rw [if_pos hc] at h
        obtain ⟨h1, h2⟩ : q' + 1 = p ∧ u' = u := by
          have h3 := Option.some.inj h
          exact ⟨congrArg Prod.fst h3, congrArg Prod.snd h3⟩
        subst h1
        subst h2
        exact ⟨le_refl _, hs, hc, fun j hj1 hj2 v hv => absurd hj2 (by omega)⟩
      · rw [if_neg hc] at h
        obtain ⟨h1, h2, h3, h4⟩ := ih h
        refine ⟨by omega, h2, h3, ?_⟩
        intro j hj1 hj2 v hv
        by_cases hj : j = q' + 1
        · subst hj
          rw [hv] at hs
          have h5 := Option.some.inj hs
          subst h5
          exact Bool.eq_false_iff.mpr hc
        · exact h4 j hj1 (by omega) v hv

theorem find?_pos_of_sorted {l : List Entry}
    (hl : l.Pairwise (fun a b => a.pos < b.pos)) {e : Entry} (he : e ∈ l) :
    l.find? (fun f => f.pos == e.pos) = some e := by
  induction l with
  | nil => cases he
  | cons f r ih =>
    rcases List.mem_cons.mp he with rfl | he'
    · rw [List.find?_cons_of_pos _ (by simp)]
    · have hlt := List.rel_of_pairwise_cons hl he'
      rw [List.find?_cons_of_neg _ (by simp only [beq_iff_eq]; omega)]
      exact ih hl.of_cons he'

theorem selectAt_of_sorted_mem {l : List Entry}
    (hl : l.Pairwise (fun a b => a.pos < b.pos)) {e : Entry} (he : e ∈ l) :
    selectAt l e.pos = some e.uid := by
  unfold selectAt
  rw [find?_pos_of_sorted hl he]
  rfl

theorem skip_forward_mk (cat : Catalog) (n : Nat) (E : List Entry) (c rr : Int) :
    skip_forward cat n ⟨E, c, rr⟩ =
      if (E.filter (fun e => decide (c < e.pos))).length = 0 then
        match get_random_song cat n with
        | none => (none, ⟨E, c, rr⟩)
        | some u => (some u, ⟨E ++ [⟨c + 1, u⟩], c + 1, 0⟩)
      else
        match (sortByPos (E.filter (fun e => decide (c < e.pos)))).find?
            (fun e => cat.contains e.uid) with
        | some e => (some e.uid, set_cursor e.pos ⟨E, c, rr⟩)
        | none => (none, ⟨E, c, rr⟩) := rfl

/-- C9 (amended): on a timeline whose rows are listed in strictly
increasing position order, if `skip_back` returns a song and the entry that
was at the cursor before the call exists and still resolves in the catalog,
then an immediate `skip_forward(shuffle=false)` — with nothing deleted in
between — returns exactly that original cursor song.  (When the original
cursor entry no longer resolves, the round trip does not return it — see
the counterexample.) -/
theorem claim9_skip_back_forward_roundtrip (cat : Catalog) (n : Nat) (s : TL) (u x : Uid)
    (hsorted : s.entries.Pairwise (fun a b => a.pos < b.pos))
    (hcur : selectAt s.entries s.cursor = some x)
    (hx : cat.contains x = true)
    (hsb : (skip_back cat s).1 = some u) :
    (skip_forward cat n (skip_back cat s).2).1 = some x := by
  rcases skip_back_cases cat s with heq | ⟨p, u', hpos, hfind, heq⟩
  · rw [heq] at hsb
    simp at hsb
  · rw [heq]
    obtain ⟨hple, hpsel, hpres, hscan⟩ := sb_find_spec hfind
    have htoNat : (((s.cursor - 1).toNat : Nat) : Int) = s.cursor - 1 :=
      Int.toNat_of_nonneg (by omega)
    have hplt : ((p : Nat) : Int) < s.cursor := by
      have h1 : ((p : Nat) : Int) ≤ (((s.cursor - 1).toNat : Nat) : Int) := by
        exact_mod_cast hple
      omega
    obtain ⟨f, hfmem, hfpos, hfuid⟩ := selectAt_some hcur
    have hf2 : f = (⟨s.cursor, x⟩ : Entry) := by
      obtain ⟨fp, fu⟩ := f
      dsimp only at hfpos hfuid
      rw [hfpos, hfuid]
    rw [hf2] at hfmem
    show (skip_forward cat n ⟨s.entries, ((p : Nat) : Int), 0⟩).1 = some x
    have hfmem2 : (⟨s.cursor, x⟩ : Entry)
        ∈ s.entries.filter (fun e => decide (((p : Nat) : Int) < e.pos)) :=
      List.mem_filter.mpr ⟨hfmem, by simpa using hplt⟩
    have hfutpair : (s.entries.filter
        (fun e => decide (((p : Nat) : Int) < e.pos))).Pairwise
        (fun a b => a.pos < b.pos) :=
      List.Pairwise.sublist (List.filter_sublist _) hsorted
    have hsorteq := sortByPos_sorted_id hfutpair
    obtain ⟨A, B, hAB⟩ := List.append_of_mem hfmem2
    have hfp2 := hfutpair
    rw [hAB, List.pairwise_append] at hfp2
    obtain ⟨hpA, hpcB, hpcross⟩ := hfp2
    have hfind2 : (sortByPos (s.entries.filter
          (fun e => decide (((p : Nat) : Int) < e.pos)))).find?
        (fun e => cat.contains e.uid) = some ⟨s.cursor, x⟩ := by
      rw [hsorteq, hAB]
      rw [find?_append_none _ ?_]
      · exact List.find?_cons_of_pos _ hx
      · refine List.find?_eq_none.mpr (fun a ha => ?_)
        have haf : a ∈ s.entries.filter
            (fun e => decide (((p : Nat) : Int) < e.pos)) := by
          rw [hAB]
          exact List.mem_append_left _ ha
        obtain ⟨hamem, hap⟩ := List.mem_filter.mp haf
        have hap' : ((p : Nat) : Int) < a.pos := by simpa using hap
        have hac : a.pos < s.cursor := hpcross a ha _ (List.mem_cons_self _ _)
        have ha0 : 0 ≤ a.pos := by omega
        have htn : ((a.pos.toNat : Nat) : Int) = a.pos := Int.toNat_of_nonneg ha0
        have hsel : selectAt s.entries ((a.pos.toNat : Nat) : Int) = some a.uid := by
          rw [htn]
          exact selectAt_of_sorted_mem hsorted hamem
        have hres := hscan a.pos.toNat (by omega) (by omega) a.uid hsel
        rw [hres]
        simp
    have hne : ¬ (s.entries.filter
        (fun e => decide (((p : Nat) : Int) < e.pos))).length = 0 := by
      intro hlen
      rw [List.length_eq_zero] at hlen
      rw [hlen] at hfmem2
      cases hfmem2
    rw [skip_forward_mk, if_neg hne, hfind2]

/-- Witness for C9 at a concrete input: timeline `[A@0, B@1]`, cursor 1,
both songs in the catalog; `skip_back` returns A and the immediate
`skip_forward` returns B, the song that was at the cursor. -/
theorem claim9_skip_back_forward_roundtrip_witness :
    (skip_back ["aaaaaaaaaaaaaaaa", "bbbbbbbbbbbbbbbb"]
      ⟨[⟨0, "aaaaaaaaaaaaaaaa"⟩, ⟨1, "bbbbbbbbbbbbbbbb"⟩], 1, 0⟩).1
        = some "aaaaaaaaaaaaaaaa" ∧
    (skip_forward ["aaaaaaaaaaaaaaaa", "bbbbbbbbbbbbbbbb"] 0
      (skip_back ["aaaaaaaaaaaaaaaa", "bbbbbbbbbbbbbbbb"]
        ⟨[⟨0, "aaaaaaaaaaaaaaaa"⟩, ⟨1, "bbbbbbbbbbbbbbbb"⟩], 1, 0⟩).2).1
      = some "bbbbbbbbbbbbbbbb" :=
  ⟨by decide,
   claim9_skip_back_forward_roundtrip _ 0 _ "aaaaaaaaaaaaaaaa" "bbbbbbbbbbbbbbbb"
     (by decide) (by decide) (by decide) (by decide)⟩

/-- Counterexample to C9 as stated: timeline `[A@0, B@1]`, cursor 1, but B
has been deleted from the catalog (before the calls — nothing is deleted in
between them).  `skip_back` returns a song (A), yet the immediate
`skip_forward` scans past the unresolvable B and returns none instead of
the reference that was at the cursor. -/
theorem claim9_cex :
    (skip_back ["aaaaaaaaaaaaaaaa"]
      ⟨[⟨0, "aaaaaaaaaaaaaaaa"⟩, ⟨1, "bbbbbbbbbbbbbbbb"⟩], 1, 0⟩).1
        = some "aaaaaaaaaaaaaaaa" ∧
    selectAt [⟨0, "aaaaaaaaaaaaaaaa"⟩, ⟨1, "bbbbbbbbbbbbbbbb"⟩] 1
      = some "bbbbbbbbbbbbbbbb" ∧
    ¬ ((skip_forward ["aaaaaaaaaaaaaaaa"] 0
        (skip_back ["aaaaaaaaaaaaaaaa"]
          ⟨[⟨0, "aaaaaaaaaaaaaaaa"⟩, ⟨1, "bbbbbbbbbbbbbbbb"⟩], 1, 0⟩).2).1
      = some "bbbbbbbbbbbbbbbb") := by
  refine ⟨?_, ?_, ?_⟩ <;> decide

/-- C6: the session exit path (`_display_and_control` after its main loop)
reports `lastPositionMs = 0` exactly when the exit reason is `ended`, and
the backend's reported position at exit time for `skip`, `abort` and
`navigate`. -/
theorem claim6_last_position (st : Session) (backendPos : Int) :
    (capture_exit backendPos st).lastPositionMs
      = if st.exitReason = .ended then 0 else backendPos := by
  unfold capture_exit
  rcases st with ⟨a, b, c, d, reason, f⟩
  cases reason <;> simp

theorem previous_song_some {cat : Catalog} {st : Session} {t : TL} {u : Uid} {t' : TL}
    (h : skip_back cat t = (some u, t')) :
    previous_song cat st t
      = ({ st with pendingUid := some u, exitReason := .navigate, shouldExit := true },
         t') := by
  unfold previous_song
  rw [h]

theorem previous_song_none {cat : Catalog} {st : Session} {t t' : TL}
    (h : skip_back cat t = (none, t')) :
    previous_song cat st t = (st, t') := by
  unfold previous_song
  rw [h]

theorem next_song_some {cat : Catalog} {n : Nat} {st : Session} {t : TL} {u : Uid} {t' : TL}
    (h : skip_forward cat n t = (some u, t')) :
    next_song cat n st t
      = ({ st with pendingUid := some u, exitReason := .navigate, shouldExit := true },
         t') := by
  unfold next_song
  rw [h]

theorem next_song_none {cat : Catalog} {n : Nat} {st : Session} {t t' : TL}
    (h : skip_forward cat n t = (none, t')) :
    next_song cat n st t = (st, t') := by
  unfold next_song
  rw [h]

/-- C7: on a previous/next key press the timeline change is exactly the one
committed by the `skip_back` / `skip_forward(shuffle=false)` call, which
runs before any session field is written; if a target comes back it becomes
the pending target, the exit reason becomes `navigate` and the exit flag is
raised, and if none comes back neither the session state (pending target,
exit reason, exit flag) nor the timeline changes. -/
theorem claim7_navigate_key_order (cat : Catalog) (n : Nat) (st : Session) (t : TL) :
    ((previous_song cat st t).2 = (skip_back cat t).2 ∧
      (∀ u, (skip_back cat t).1 = some u →
        (previous_song cat st t).1
          = { st with
                pendingUid := some u
                exitReason := .navigate
                shouldExit := true }) ∧
      ((skip_back cat t).1 = none → previous_song cat st t = (st, t))) ∧
    ((next_song cat n st t).2 = (skip_forward cat n t).2 ∧
      (∀ u, (skip_forward cat n t).1 = some u →
        (next_song cat n st t).1
          = { st with
                pendingUid := some u
                exitReason := .navigate
                shouldExit := true }) ∧
      ((skip_forward cat n t).1 = none → next_song cat n st t = (st, t))) := by
  refine ⟨⟨?_, ?_, ?_⟩, ⟨?_, ?_, ?_⟩⟩
  · rcases hr : skip_back cat t with ⟨o, t2⟩
    rcases o with _ | u
    · rw [previous_song_none hr]
    · rw [previous_song_some hr]
  · intro u hu
    rcases hr : skip_back cat t with ⟨o, t2⟩
    rw [hr] at hu
    dsimp only at hu
    subst hu
    rw [previous_song_some hr]
  · intro h
    have h2 : (skip_back cat t).2 = t := skip_back_none_unchanged h
    rcases hr : skip_back cat t with ⟨o, t2⟩
    rw [hr] at h h2
    dsimp only at h h2
    subst h
    subst h2
    rw [previous_song_none hr]
  · rcases hr : skip_forward cat n t with ⟨o, t2⟩
    rcases o with _ | u
    · rw [next_song_none hr]
    · rw [next_song_some hr]
  · intro u hu
    rcases hr : skip_forward cat n t with ⟨o, t2⟩
    rw [hr] at hu
    dsimp only at hu
    subst hu
    rw [next_song_some hr]
  · intro h
    have h2 : (skip_forward cat n t).2 = t := skip_forward_none_unchanged h
    rcases hr : skip_forward cat n t with ⟨o, t2⟩
    rw [hr] at h h2
    dsimp only at h h2
    subst h
    subst h2
    rw [next_song_none hr]

/-- Witness for C7 at concrete inputs: a G press on an empty timeline (no
target) is a complete no-op, and an H press with a one-song catalog commits
the cursor move and raises the exit flag with reason `navigate`. -/
theorem claim7_navigate_key_order_witness :
    (previous_song [] ⟨true, false, false, none, .ended, 0⟩ ⟨[], -1, 0⟩
      = (⟨true, false, false, none, .ended, 0⟩, ⟨[], -1, 0⟩)) ∧
    ((next_song ["aaaaaaaaaaaaaaaa"] 0 ⟨true, false, false, none, .ended, 0⟩
        ⟨[], -1, 0⟩).1
      = ⟨true, false, true, some "aaaaaaaaaaaaaaaa", .navigate, 0⟩) := by
  constructor
  · exact (claim7_navigate_key_order [] 0 ⟨true, false, false, none, .ended, 0⟩
      ⟨[], -1, 0⟩).1.2.2 (by decide)
  · have h := (claim7_navigate_key_order ["aaaaaaaaaaaaaaaa"] 0
      ⟨true, false, false, none, .ended, 0⟩ ⟨[], -1, 0⟩).2.2.1
      "aaaaaaaaaaaaaaaa" (by decide)
    rw [h]

/-- C5: for a session inside a managed queue exiting with reason `navigate`
whose pending target resolves with a playable path (as targets returned by
the timeline skip functions do): the coordinator persists no resume offset
and does not touch the timeline at all (`.2 = t`), it maps the new cursor
to the local index `cursor - timelineBase - 1` (equal to
`cursor - queueBase` for `queueBase = timelineBase + 1`, the position of
the first queued song), abandons the walk when that index is outside
`[0, queueLen)`, and otherwise resumes the walk at that index without
moving the cursor again. -/
theorem claim5_navigate_in_queue (hasPath : Uid → Bool) (timelineBase : Int)
    (queueLen : Nat) (oc : SongOutcome) (t : TL) (u : Uid)
    (hreason : oc.reason = .navigate)
    (hpending : oc.pending = some u)
    (hpath : hasPath u = true) :
    (playlist_after_song hasPath timelineBase queueLen oc t).2 = t ∧
    t.cursor - timelineBase - 1 = t.cursor - (timelineBase + 1) ∧
    ((t.cursor - timelineBase - 1 < 0 ∨
        (queueLen : Int) ≤ t.cursor - timelineBase - 1) →
      (playlist_after_song hasPath timelineBase queueLen oc t).1 = .abandoned) ∧
    (0 ≤ t.cursor - timelineBase - 1 → t.cursor - timelineBase - 1 < (queueLen : Int) →
      (playlist_after_song hasPath timelineBase queueLen oc t).1
        = .resumeAt (t.cursor - timelineBase - 1).toNat) := by
  have hps : play_song_after hasPath oc t = (true, t) := by
    unfold play_song_after
    rw [hpending]
    dsimp only
    rw [hpath]
    rfl
  have hmk : playlist_after_song hasPath timelineBase queueLen oc t
      = (if t.cursor - timelineBase - 1 < 0 ∨
            (queueLen : Int) ≤ t.cursor - timelineBase - 1
         then ((.abandoned : WalkAction), t)
         else (.resumeAt (t.cursor - timelineBase - 1).toNat, t)) := by
    unfold playlist_after_song
    rw [hps, hreason]
    dsimp only
    rw [if_neg (fun hcon => ExitReason.noConfusion hcon), if_pos rfl]
  refine ⟨?_, by ring, ?_, ?_⟩
  · rw [hmk]
    split <;> rfl
  · intro hout
    rw [hmk, if_pos hout]
  · intro h1 h2
    rw [hmk, if_neg (by omega)]

/-- Witness for C5 at concrete inputs: a navigate exit landing on local
index 0 of a two-song queue resumes there with the timeline untouched. -/
theorem claim5_navigate_in_queue_witness :
    (playlist_after_song (fun _ => true) 0 2 ⟨.navigate, some "u", 5⟩ ⟨[], 1, 9⟩).2
      = (⟨[], 1, 9⟩ : TL) ∧
    (playlist_after_song (fun _ => true) 0 2 ⟨.navigate, some "u", 5⟩ ⟨[], 1, 9⟩).1
      = .resumeAt ((1 : Int) - 0 - 1).toNat := by
  have h := claim5_navigate_in_queue (fun _ => true) 0 2 ⟨.navigate, some "u", 5⟩
    ⟨[], 1, 9⟩ "u" rfl rfl rfl
  exact ⟨h.1, h.2.2.2 (by decide) (by decide)⟩

end Spear
